import Mathlib

/-!
Verification development for the two-stage face-recognition pipeline
(`fd_component.py`, the edge Ingestion/detection stage, and `fr_lambda.py`,
the Recognition lambda).  The Python sources are shallowly embedded below:
pure helpers become Lean functions, the stdlib base64 codec is implemented
directly, exceptions become `Option`/`Except`, the scratch filesystem is an
explicit association list threaded through the handlers, and the external
model adapters (MTCNN detection, ResNet embedding) and the image codec are
opaque function parameters, exactly as the spec scopes them.
-/

namespace FacePipeline

/-! ## Base64 codec (models Python `base64.b64encode` / `base64.b64decode`)

Bytes are `Nat`s; encoding is defined on any `Nat`s but the round-trip holds
for genuine bytes (`< 256`).  Decoding returns `none` where Python's
`b64decode` raises `binascii.Error`.  Our decoder is stricter than Python's
about stray alphabet-external characters (Python discards those), but it
agrees with Python on every string produced by `b64encode` and on mis-padded
inputs such as `"A"`, where Python also raises — the only points the
theorems below evaluate it at. -/

def b64Char (n : Nat) : Char :=
  if n < 26 then Char.ofNat (65 + n)
  else if n < 52 then Char.ofNat (97 + (n - 26))
  else if n < 62 then Char.ofNat (48 + (n - 52))
  else if n = 62 then '+'
  else '/'

def b64Val (c : Char) : Option Nat :=
  if 'A' ≤ c ∧ c ≤ 'Z' then some (c.toNat - 65)
  else if 'a' ≤ c ∧ c ≤ 'z' then some (c.toNat - 97 + 26)
  else if '0' ≤ c ∧ c ≤ '9' then some (c.toNat - 48 + 52)
  else if c = '+' then some 62
  else if c = '/' then some 63
  else none

/-- Encode bytes three at a time into base64 characters, with `=` padding. -/
def b64EncodeAux : List Nat → List Char
  | [] => []
  | [b1] =>
      [b64Char (b1 / 4), b64Char (b1 % 4 * 16), '=', '=']
  | [b1, b2] =>
      [b64Char (b1 / 4), b64Char (b1 % 4 * 16 + b2 / 16), b64Char (b2 % 16 * 4), '=']
  | b1 :: b2 :: b3 :: rest =>
      b64Char (b1 / 4) :: b64Char (b1 % 4 * 16 + b2 / 16) ::
        b64Char (b2 % 16 * 4 + b3 / 64) :: b64Char (b3 % 64) :: b64EncodeAux rest

/-- Decode base64 characters four at a time; `none` models a raised
`binascii.Error`. -/
def b64DecodeAux : List Char → Option (List Nat)
  | [] => some []
  | c1 :: c2 :: c3 :: c4 :: rest =>
      if c3 = '=' ∧ c4 = '=' ∧ rest = [] then do
        let v1 ← b64Val c1
        let v2 ← b64Val c2
        pure [v1 * 4 + v2 / 16]
      else if c4 = '=' ∧ rest = [] then do
        let v1 ← b64Val c1
        let v2 ← b64Val c2
        let v3 ← b64Val c3
        pure [v1 * 4 + v2 / 16, v2 % 16 * 16 + v3 / 4]
      else do
        let v1 ← b64Val c1
        let v2 ← b64Val c2
        let v3 ← b64Val c3
        let v4 ← b64Val c4
        let tail ← b64DecodeAux rest
        pure ((v1 * 4 + v2 / 16) :: (v2 % 16 * 16 + v3 / 4) :: (v3 % 4 * 64 + v4) :: tail)
  | _ => none

def b64encode (bs : List Nat) : String := String.mk (b64EncodeAux bs)

def b64decode (s : String) : Option (List Nat) := b64DecodeAux s.data

/-! ## Scratch filesystem model

An association list from path to byte content, most recent write first, plus
a trace of file operations performed (creations and removals), which the
temp-file claims are stated over. -/

def FileSystem := List (String × List Nat)

def fsWrite (fs : FileSystem) (p : String) (v : List Nat) : FileSystem := (p, v) :: fs

def fsRead (fs : FileSystem) (p : String) : Option (List Nat) :=
  (fs.find? (fun e => e.1 == p)).map (fun e => e.2)

inductive FileOp where
  | create (path : String)
  | remove (path : String)
deriving DecidableEq

/-! ## Ingestion stage (`fd_component.py`)

`FaceTensor` is the detector's output (`mtcnn` is configured with
`image_size=240`, so the adapter contract fixes `height = width = 240`; the
pixel values are the flattened tensor entries as exact rationals).  The MTCNN
call — together with the `Image.open(...).convert("RGB")` round-trip feeding
it — is the opaque parameter `det`: `Except.error` is a raised exception,
`Except.ok none` is "no face".  The JPEG save (`face_pil.save`) is the opaque
codec parameter `imgSave`. -/

structure FaceTensor where
  height : Nat
  width : Nat
  vals : List ℚ

/-- Models `tensor.min()` on a nonempty tensor (the `[]` case is never used by
the handlers; torch raises there). -/
def tmin : List ℚ → ℚ
  | [] => 0
  | x :: xs => xs.foldl min x

/-- Models `tensor.max()` on a nonempty tensor. -/
def tmax : List ℚ → ℚ
  | [] => 0
  | x :: xs => xs.foldl max x

/-- Lines 65–67 of `fd_component.py`:
`face_img = face_tensor - face_tensor.min()`,
`denom = face_img.max() - face_img.min()`,
`face_img = (face_img / denom * 255) if denom > 0 else face_img * 0`. -/
def normalizeFace (vals : List ℚ) : List ℚ :=
  let face_img := vals.map (fun v => v - tmin vals)
  let denom := tmax face_img - tmin face_img
  if 0 < denom then face_img.map (fun v => v / denom * 255)
  else face_img.map (fun v => v * 0)

/-- Models `.byte()`: float-to-uint8 truncation (the normalized values are in
`[0, 255]`, where truncation agrees with the floor). -/
def toByte (q : ℚ) : Nat := (⌊q⌋).toNat % 256

structure RGBImage where
  height : Nat
  width : Nat
  pixels : List Nat

/-- Line 68: `Image.fromarray(face_img.byte().permute(1, 2, 0).numpy(), mode="RGB")`.
The CHW→HWC permutation only reorders entries, so the flattened value list is
kept in tensor order. -/
def tensorToRGB (t : FaceTensor) : RGBImage :=
  { height := t.height, width := t.width, pixels := (normalizeFace t.vals).map toByte }

def TMP_DIR : String := "/tmp/faces"

/-- Inbound MQTT payload after `json.loads`; each field is `none` when the key
is absent. -/
structure InMsg where
  encoded : Option String
  request_id : Option String
  filename : Option String

/-- Python falsiness of `message.get(key)`: `None` (missing key) or `""`. -/
def falsy : Option String → Bool
  | none => true
  | some s => s == ""

/-- Outbound SQS emissions of the ingestion handler: `toWorkQueue` is a
`sqs.send_message` to the request queue, `toResultChannel` to the response
queue. -/
inductive IngEmit where
  | toWorkQueue (request_id filename face : String)
  | toResultChannel (request_id filename result : String)
deriving DecidableEq

/-- Models `FaceDetection.detect_face_to_file` (lines 50–72): run the detector; on a
face, write the normalized crop to the fixed path
`output_dir/detected_face.jpg` and return that path. -/
def detect_face_to_file (det : List Nat → Except Unit (Option FaceTensor))
    (imgSave : RGBImage → List Nat) (image_bytes : List Nat) (output_dir : String)
    (fs : FileSystem) : Except Unit (Option String × FileSystem × List FileOp) :=
  match det image_bytes with
  | Except.error e => Except.error e
  | Except.ok none => Except.ok (none, fs, [])
  | Except.ok (some t) =>
      let face_pil := tensorToRGB t
      let file_path := output_dir ++ "/detected_face.jpg"
      Except.ok (some file_path, fsWrite fs file_path (imgSave face_pil),
        [FileOp.create file_path])

/-- The fixed path every detected crop is written to. -/
def ingestionFacePath : String := TMP_DIR ++ "/detected_face.jpg"

/-- Models `on_message_received` (lines 76–117).  `msg = none` models a payload on
which `json.loads` raises (caught by the top-level handler).  Returns the
emissions, the updated scratch filesystem, and the file-operation trace. -/
def on_message_received (det : List Nat → Except Unit (Option FaceTensor))
    (imgSave : RGBImage → List Nat) (msg : Option InMsg) (fs : FileSystem) :
    List IngEmit × FileSystem × List FileOp :=
  match msg with
  | none => ([], fs, [])
  | some m =>
    if falsy m.encoded || falsy m.request_id || falsy m.filename then ([], fs, [])
    else
      match b64decode (m.encoded.getD ("")) with
      | none => ([], fs, [])
      | some img_bytes =>
        match detect_face_to_file det imgSave img_bytes TMP_DIR fs with
        | Except.error _ => ([], fs, [])
        | Except.ok (none, fs2, ops) =>
            ([IngEmit.toResultChannel (m.request_id.getD ("")) (m.filename.getD (""))
                ("No-Face")], fs2, ops)
        | Except.ok (some p, fs2, ops) =>
            let encoded_face := b64encode ((fsRead fs2 p).getD [])
            ([IngEmit.toWorkQueue (m.request_id.getD ("")) (m.filename.getD (""))
                encoded_face], fs2, ops)

/-! ## Recognition stage (`fr_lambda.py`)

`torch.dist(emb, e)` is the Euclidean (L2) distance; since the square root is
strictly monotone on nonnegative reals, the index of the first minimum of the
true distances coincides with the index of the first minimum of the squared
distances, which we compute to stay inside `ℚ`.  `np.argmin` returns the
first index attaining the minimum and raises on an empty list (`none`
below).  The embedding adapter — `Image.open` on the temp file, the
preprocessing, and the ResNet forward pass — is the opaque parameter
`embedImg`; `none` models any raised exception. -/

/-- Squared Euclidean distance between two flattened tensors. -/
def dist2 (u v : List ℚ) : ℚ :=
  ((List.zipWith (fun a b => a - b) u v).map (fun d => d * d)).sum

/-- Linear scan keeping the first strict minimum, as `np.argmin` does. -/
def argminAux : List ℚ → ℚ → Nat → Nat → Nat
  | [], _, bestIdx, _ => bestIdx
  | y :: ys, best, bestIdx, i =>
      if y < best then argminAux ys y i (i + 1) else argminAux ys best bestIdx (i + 1)

def argminIdx : List ℚ → Option Nat
  | [] => none
  | x :: xs => some (argminAux xs x 0 1)

/-- Models `FaceRecognition.predict_name` (lines 54–57), given the query embedding:
`dists = [torch.dist(emb, e).item() for e in self._embeddings]`,
`idx = int(np.argmin(dists))`, `return self._names[idx]`.  `none` models the
exceptions raised on an empty gallery or an out-of-range index. -/
def predict_name (embeddings : List (List ℚ)) (names : List String) (emb : List ℚ) :
    Option String :=
  match argminIdx (embeddings.map (fun e => dist2 emb e)) with
  | none => none
  | some idx => names.get? idx

/-- One work-queue record body after `json.loads`; `none` fields are missing
keys (`payload[...]` raises `KeyError`). -/
structure RecordPayload where
  request_id : Option String
  face : Option String
  filename : Option String

structure RecResult where
  request_id : String
  result : String
deriving DecidableEq

structure LambdaResponse where
  statusCode : Nat
  body : String
deriving DecidableEq

/-- Result of `json.dumps({"message": "Face recognition completed."})`. -/
def successBody : String := "\x7b\"message\": \"Face recognition completed.\"\x7d"

def successResponse : LambdaResponse := { statusCode := 200, body := successBody }

/-- Body of the per-record loop of `lambda_handler` (lines 70–94), for one
record.  `record = none` models a body on which `json.loads` raises; a missing
`request_id`/`face` key raises `KeyError` before the temp file exists.  The
temp file (`tempfile.NamedTemporaryFile(delete=False)`) is created before the
base64 decode of `face` runs, and `face_path` is only assigned afterwards, so
a decode failure leaves the file in place (the `finally` block removes the
file only when `face_path` was assigned and the file exists). -/
def processRecord (embedImg : List Nat → Option (List ℚ)) (embeddings : List (List ℚ))
    (names : List String) (tmpName : String) (record : Option RecordPayload) :
    Option RecResult × List FileOp :=
  match record with
  | none => (none, [])
  | some payload =>
    match payload.request_id with
    | none => (none, [])
    | some request_id =>
      match payload.face with
      | none => (none, [])
      | some face_b64 =>
        match b64decode face_b64 with
        | none => (none, [FileOp.create tmpName])
        | some face_bytes =>
            match embedImg face_bytes with
            | none => (none, [FileOp.create tmpName, FileOp.remove tmpName])
            | some emb =>
                match predict_name embeddings names emb with
                | none => (none, [FileOp.create tmpName, FileOp.remove tmpName])
                | some label =>
                    (some { request_id := request_id, result := label },
                      [FileOp.create tmpName, FileOp.remove tmpName])

/-- The `for record in event.get("Records", [])` loop; `freshName i` is the
unique name the OS hands to `NamedTemporaryFile` for the `i`-th record. -/
def runRecords (embedImg : List Nat → Option (List ℚ)) (embeddings : List (List ℚ))
    (names : List String) (freshName : Nat → String) :
    Nat → List (Option RecordPayload) → List RecResult × List FileOp
  | _, [] => ([], [])
  | i, r :: rs =>
      let out := processRecord embedImg embeddings names (freshName i) r
      let rest := runRecords embedImg embeddings names freshName (i + 1) rs
      (out.1.toList ++ rest.1, out.2 ++ rest.2)

/-- Models `lambda_handler` (lines 61–96): process each record, isolating failures,
then return the fixed success envelope.  `event = none` models an event with
no `"Records"` key. -/
def lambda_handler (embedImg : List Nat → Option (List ℚ)) (embeddings : List (List ℚ))
    (names : List String) (freshName : Nat → String)
    (event : Option (List (Option RecordPayload))) :
    List RecResult × List FileOp × LambdaResponse :=
  let out := runRecords embedImg embeddings names freshName 0 (event.getD [])
  (out.1, out.2, successResponse)

/-! ## Helper lemmas -/

/-- The per-record outcome, which does not depend on the temp-file name. -/
def recordEmits (embedImg : List Nat → Option (List ℚ)) (embeddings : List (List ℚ))
    (names : List String) (record : Option RecordPayload) : Option RecResult :=
  (processRecord embedImg embeddings names ("") record).1

/-! ## Lemmas about the embedding -/

theorem b64Val_b64Char : ∀ n : Nat, n < 64 → b64Val (b64Char n) = some n := by
  decide

theorem b64Char_ne_pad : ∀ n : Nat, n < 64 → b64Char n ≠ '=' := by
  decide

theorem b64DecodeAux_b64EncodeAux :
    ∀ bs : List Nat, (∀ b ∈ bs, b < 256) → b64DecodeAux (b64EncodeAux bs) = some bs := by
  intro bs
  induction bs using b64EncodeAux.induct with
  | case1 => intro _; rfl
  | case2 b1 =>
      intro h
      have hb1 : b1 < 256 := h b1 (by simp)
      simp only [b64EncodeAux, b64DecodeAux]
      rw [if_pos (by simp),
        b64Val_b64Char _ (by omega), b64Val_b64Char _ (by omega)]
      simp only [Option.bind_eq_bind, Option.some_bind]
      congr 2
      omega
  | case3 b1 b2 =>
      intro h
      have hb1 : b1 < 256 := h b1 (by simp)
      have hb2 : b2 < 256 := h b2 (by simp)
      simp only [b64EncodeAux, b64DecodeAux]
      rw [if_neg (fun hc => b64Char_ne_pad _ (by omega) hc.1),
        if_pos (by simp),
        b64Val_b64Char _ (by omega), b64Val_b64Char _ (by omega),
        b64Val_b64Char _ (by omega)]
      simp only [Option.bind_eq_bind, Option.some_bind]
      congr 1
      refine List.cons_eq_cons.mpr ⟨by omega, ?_⟩
      refine List.cons_eq_cons.mpr ⟨by omega, rfl⟩
  | case4 b1 b2 b3 rest ih =>
      intro h
      have hb1 : b1 < 256 := h b1 (by simp)
      have hb2 : b2 < 256 := h b2 (by simp)
      have hb3 : b3 < 256 := h b3 (by simp)
      have hrest : ∀ b ∈ rest, b < 256 := fun b hb => h b (by simp [hb])
      simp only [b64EncodeAux, b64DecodeAux]
      rw [if_neg (fun hc => b64Char_ne_pad _ (by omega) hc.1),
        if_neg (fun hc => b64Char_ne_pad _ (by omega) hc.1),
        b64Val_b64Char _ (by omega), b64Val_b64Char _ (by omega),
        b64Val_b64Char _ (by omega), b64Val_b64Char _ (by omega), ih hrest]
      simp only [Option.bind_eq_bind, Option.some_bind]
      congr 1
      refine List.cons_eq_cons.mpr ⟨by omega, ?_⟩
      refine List.cons_eq_cons.mpr ⟨by omega, ?_⟩
      refine List.cons_eq_cons.mpr ⟨by omega, rfl⟩

/-- Round trip: decoding an encoded byte list gives back the bytes. -/
theorem b64decode_b64encode (bs : List Nat) (h : ∀ b ∈ bs, b < 256) :
    b64decode (b64encode bs) = some bs :=
  b64DecodeAux_b64EncodeAux bs h

example : b64encode [0] = "AA==" := by rfl
example : b64encode [0, 255] = "AP8=" := by rfl
example : b64decode "AP8=" = some [0, 255] := by rfl
example : b64decode "A" = none := by rfl

theorem fsRead_fsWrite (fs : FileSystem) (p : String) (v : List Nat) :
    fsRead (fsWrite fs p v) p = some v := by
  simp [fsRead, fsWrite]

theorem processRecord_fst_eq (embedImg : List Nat → Option (List ℚ))
    (embeddings : List (List ℚ)) (names : List String) (t : String)
    (record : Option RecordPayload) :
    (processRecord embedImg embeddings names t record).1
      = recordEmits embedImg embeddings names record := by
  cases record with
  | none => rfl
  | some p =>
    obtain ⟨r1, f1, n1⟩ := p
    cases r1 with
    | none => rfl
    | some rid =>
      cases f1 with
      | none => rfl
      | some face =>
        rcases hdec : b64decode face with _ | bs
        · simp [recordEmits, processRecord, hdec]
        · rcases hemb : embedImg bs with _ | emb
          · simp [recordEmits, processRecord, hdec, hemb]
          · rcases hpred : predict_name embeddings names emb with _ | label
            · simp [recordEmits, processRecord, hdec, hemb, hpred]
            · simp [recordEmits, processRecord, hdec, hemb, hpred]

theorem runRecords_results (embedImg : List Nat → Option (List ℚ))
    (embeddings : List (List ℚ)) (names : List String) (freshName : Nat → String) :
    ∀ (rs : List (Option RecordPayload)) (i : Nat),
      (runRecords embedImg embeddings names freshName i rs).1
        = rs.filterMap (recordEmits embedImg embeddings names) := by
  intro rs
  induction rs with
  | nil => intro i; rfl
  | cons r rs ih =>
    intro i
    simp only [runRecords, List.filterMap_cons]
    rw [ih (i + 1), processRecord_fst_eq]
    cases recordEmits embedImg embeddings names r <;> simp

theorem length_filterMap_eq_countP {α β : Type} (f : α → Option β) (l : List α) :
    (l.filterMap f).length = l.countP (fun a => (f a).isSome) := by
  induction l with
  | nil => rfl
  | cons x l ih =>
    simp only [List.filterMap_cons, List.countP_cons]
    cases hx : f x <;> simp [ih, hx]

theorem countP_isSome_add_isNone {α β : Type} (f : α → Option β) (l : List α) :
    l.countP (fun a => (f a).isSome) + l.countP (fun a => (f a).isNone) = l.length := by
  induction l with
  | nil => rfl
  | cons x l ih =>
    cases hx : f x <;> simp [List.countP_cons, hx] <;> omega

theorem argminAux_spec :
    ∀ (ys : List ℚ) (best : ℚ) (bestIdx i : Nat),
      (argminAux ys best bestIdx i = bestIdx ∧ ∀ y ∈ ys, best ≤ y)
      ∨ (∃ j, j < ys.length ∧ argminAux ys best bestIdx i = i + j
          ∧ ys.getD j 0 < best
          ∧ (∀ k, k < ys.length → ys.getD j 0 ≤ ys.getD k 0)
          ∧ (∀ k, k < j → ys.getD j 0 < ys.getD k 0)) := by
  intro ys
  induction ys with
  | nil =>
    intro best bestIdx i
    left
    exact ⟨rfl, by simp⟩
  | cons y ys ih =>
    intro best bestIdx i
    by_cases hy : y < best
    · rcases ih y i (i + 1) with ⟨heq, hle⟩ | ⟨j, hj, heq, hlt, hmin, hfirst⟩
      · right
        refine ⟨0, by simp, ?_, by simpa using hy, ?_, ?_⟩
        · simp only [argminAux, if_pos hy]
          omega
        · intro k hk
          cases k with
          | zero => simp
          | succ k =>
            simp only [List.getD_cons_zero, List.getD_cons_succ]
            have hk' : k < ys.length := by
              simpa [List.length_cons, Nat.succ_lt_succ_iff] using hk
            rw [List.getD_eq_getElem _ _ hk']
            exact hle _ (List.getElem_mem _)
        · intro k hk
          exact absurd hk (Nat.not_lt_zero k)
      · right
        refine ⟨j + 1, by simp only [List.length_cons]; omega, ?_, ?_, ?_, ?_⟩
        · simp only [argminAux, if_pos hy]
          omega
        · simpa only [List.getD_cons_succ] using lt_trans hlt hy
        · intro k hk
          cases k with
          | zero => simpa using le_of_lt hlt
          | succ k =>
            simp only [List.getD_cons_succ]
            exact hmin k (by simpa [List.length_cons, Nat.succ_lt_succ_iff] using hk)
        · intro k hk
          cases k with
          | zero => simpa using hlt
          | succ k =>
            simp only [List.getD_cons_succ]
            exact hfirst k (by omega)
    · rcases ih best bestIdx (i + 1) with ⟨heq, hle⟩ | ⟨j, hj, heq, hlt, hmin, hfirst⟩
      · left
        refine ⟨by simp only [argminAux, if_neg hy]; exact heq, ?_⟩
        intro z hz
        rcases List.mem_cons.mp hz with rfl | hz'
        · exact not_lt.mp hy
        · exact hle z hz'
      · right
        refine ⟨j + 1, by simp only [List.length_cons]; omega, ?_, ?_, ?_, ?_⟩
        · simp only [argminAux, if_neg hy]
          omega
        · simpa only [List.getD_cons_succ] using hlt
        · intro k hk
          cases k with
          | zero =>
            simpa using le_of_lt (lt_of_lt_of_le hlt (not_lt.mp hy))
          | succ k =>
            simp only [List.getD_cons_succ]
            exact hmin k (by simpa [List.length_cons, Nat.succ_lt_succ_iff] using hk)
        · intro k hk
          cases k with
          | zero => simpa using lt_of_lt_of_le hlt (not_lt.mp hy)
          | succ k =>
            simp only [List.getD_cons_succ]
            exact hfirst k (by omega)

theorem argminIdx_spec (l : List ℚ) (hne : l ≠ []) :
    ∃ i, argminIdx l = some i ∧ i < l.length
      ∧ (∀ j, j < l.length → l.getD i 0 ≤ l.getD j 0)
      ∧ (∀ j, j < i → l.getD i 0 < l.getD j 0) := by
  cases l with
  | nil => exact absurd rfl hne
  | cons x xs =>
    rcases argminAux_spec xs x 0 1 with ⟨heq, hle⟩ | ⟨j, hj, heq, hlt, hmin, hfirst⟩
    · refine ⟨0, by simp [argminIdx, heq], by simp, ?_, ?_⟩
      · intro k hk
        cases k with
        | zero => exact le_refl _
        | succ k =>
          simp only [List.getD_cons_zero, List.getD_cons_succ]
          have hk' : k < xs.length := by
            simpa [List.length_cons, Nat.succ_lt_succ_iff] using hk
          rw [List.getD_eq_getElem _ _ hk']
          exact hle _ (List.getElem_mem _)
      · intro k hk
        exact absurd hk (Nat.not_lt_zero k)
    · refine ⟨j + 1, by simp [argminIdx, heq, Nat.add_comm],
        by simp only [List.length_cons]; omega, ?_, ?_⟩
      · intro k hk
        cases k with
        | zero => simpa using le_of_lt hlt
        | succ k =>
          simp only [List.getD_cons_succ]
          exact hmin k (by simpa [List.length_cons, Nat.succ_lt_succ_iff] using hk)
      · intro k hk
        cases k with
        | zero => simpa using hlt
        | succ k =>
          simp only [List.getD_cons_succ]
          exact hfirst k (by omega)

theorem dist2_self (v : List ℚ) : dist2 v v = 0 := by
  induction v with
  | nil => rfl
  | cons x v ih =>
    simp only [dist2, List.zipWith_cons_cons, List.map_cons, List.sum_cons, sub_self,
      zero_mul, zero_add] at ih ⊢
    exact ih

theorem dist2_nonneg (u v : List ℚ) : 0 ≤ dist2 u v := by
  refine List.sum_nonneg ?_
  intro x hx
  simp only [List.mem_map] at hx
  obtain ⟨d, _, rfl⟩ := hx
  exact mul_self_nonneg d

theorem eq_of_dist2_eq_zero :
    ∀ (u v : List ℚ), u.length = v.length → dist2 u v = 0 → u = v := by
  intro u
  induction u with
  | nil =>
    intro v hlen _
    cases v with
    | nil => rfl
    | cons y v => simp at hlen
  | cons x u ih =>
    intro v hlen h0
    cases v with
    | nil => simp at hlen
    | cons y v =>
      simp only [dist2, List.zipWith_cons_cons, List.map_cons, List.sum_cons] at h0
      have h2 : 0 ≤ dist2 u v := dist2_nonneg u v
      have h0' : (x - y) * (x - y) + dist2 u v = 0 := h0
      have hx : (x - y) * (x - y) = 0 ∧ dist2 u v = 0 :=
        (add_eq_zero_iff_of_nonneg (mul_self_nonneg _) h2).mp h0'
      have hxy : x = y := sub_eq_zero.mp (mul_self_eq_zero.mp hx.1)
      have htail := ih v (by simpa using hlen) hx.2
      rw [hxy, htail]

theorem getD_map_dist2 (emb : List ℚ) (l : List (List ℚ)) (j : Nat) (hj : j < l.length) :
    (l.map (fun e => dist2 emb e)).getD j 0 = dist2 emb (l.getD j []) := by
  rw [List.getD_eq_getElem _ _ (by simpa using hj), List.getD_eq_getElem _ _ hj,
    List.getElem_map]

theorem foldl_min_map_sub (m : ℚ) :
    ∀ (xs : List ℚ) (a : ℚ),
      (xs.map (fun v => v - m)).foldl min (a - m) = xs.foldl min a - m := by
  intro xs
  induction xs with
  | nil => intro a; rfl
  | cons x xs ih =>
    intro a
    simp only [List.map_cons, List.foldl_cons]
    rw [min_sub_sub_right]
    exact ih (min a x)

theorem foldl_max_map_sub (m : ℚ) :
    ∀ (xs : List ℚ) (a : ℚ),
      (xs.map (fun v => v - m)).foldl max (a - m) = xs.foldl max a - m := by
  intro xs
  induction xs with
  | nil => intro a; rfl
  | cons x xs ih =>
    intro a
    simp only [List.map_cons, List.foldl_cons]
    rw [max_sub_sub_right]
    exact ih (max a x)

theorem tmin_map_sub (xs : List ℚ) (m : ℚ) (h : xs ≠ []) :
    tmin (xs.map (fun v => v - m)) = tmin xs - m := by
  cases xs with
  | nil => exact absurd rfl h
  | cons x xs =>
    simp only [List.map_cons, tmin]
    exact foldl_min_map_sub m xs x

theorem tmax_map_sub (xs : List ℚ) (m : ℚ) (h : xs ≠ []) :
    tmax (xs.map (fun v => v - m)) = tmax xs - m := by
  cases xs with
  | nil => exact absurd rfl h
  | cons x xs =>
    simp only [List.map_cons, tmax]
    exact foldl_max_map_sub m xs x

theorem foldl_min_map_comm (f : ℚ → ℚ) (hf : ∀ a b, min (f a) (f b) = f (min a b)) :
    ∀ (xs : List ℚ) (a : ℚ), (xs.map f).foldl min (f a) = f (xs.foldl min a) := by
  intro xs
  induction xs with
  | nil => intro a; rfl
  | cons x xs ih =>
    intro a
    simp only [List.map_cons, List.foldl_cons]
    rw [hf, ih]

theorem foldl_max_map_comm (f : ℚ → ℚ) (hf : ∀ a b, max (f a) (f b) = f (max a b)) :
    ∀ (xs : List ℚ) (a : ℚ), (xs.map f).foldl max (f a) = f (xs.foldl max a) := by
  intro xs
  induction xs with
  | nil => intro a; rfl
  | cons x xs ih =>
    intro a
    simp only [List.map_cons, List.foldl_cons]
    rw [hf, ih]

theorem tmin_map_comm (f : ℚ → ℚ) (hf : ∀ a b, min (f a) (f b) = f (min a b))
    (xs : List ℚ) (h : xs ≠ []) : tmin (xs.map f) = f (tmin xs) := by
  cases xs with
  | nil => exact absurd rfl h
  | cons x xs =>
    simp only [List.map_cons, tmin]
    exact foldl_min_map_comm f hf xs x

theorem tmax_map_comm (f : ℚ → ℚ) (hf : ∀ a b, max (f a) (f b) = f (max a b))
    (xs : List ℚ) (h : xs ≠ []) : tmax (xs.map f) = f (tmax xs) := by
  cases xs with
  | nil => exact absurd rfl h
  | cons x xs =>
    simp only [List.map_cons, tmax]
    exact foldl_max_map_comm f hf xs x

theorem foldl_min_le_init : ∀ (xs : List ℚ) (a : ℚ), xs.foldl min a ≤ a := by
  intro xs
  induction xs with
  | nil => intro a; exact le_refl a
  | cons x xs ih =>
    intro a
    exact le_trans (ih (min a x)) (min_le_left a x)

theorem le_foldl_max_init : ∀ (xs : List ℚ) (a : ℚ), a ≤ xs.foldl max a := by
  intro xs
  induction xs with
  | nil => intro a; exact le_refl a
  | cons x xs ih =>
    intro a
    exact le_trans (le_max_left a x) (ih (max a x))

theorem foldl_min_le_mem : ∀ (xs : List ℚ) (a v : ℚ), v ∈ xs → xs.foldl min a ≤ v := by
  intro xs
  induction xs with
  | nil => intro a v hv; simp at hv
  | cons x xs ih =>
    intro a v hv
    rcases List.mem_cons.mp hv with rfl | hv'
    · exact le_trans (foldl_min_le_init xs (min a v)) (min_le_right a v)
    · exact ih (min a x) v hv'

theorem mem_le_foldl_max : ∀ (xs : List ℚ) (a v : ℚ), v ∈ xs → v ≤ xs.foldl max a := by
  intro xs
  induction xs with
  | nil => intro a v hv; simp at hv
  | cons x xs ih =>
    intro a v hv
    rcases List.mem_cons.mp hv with rfl | hv'
    · exact le_trans (le_max_right a v) (le_foldl_max_init xs (max a v))
    · exact ih (max a x) v hv'

theorem tmin_le_mem (xs : List ℚ) (v : ℚ) (hv : v ∈ xs) : tmin xs ≤ v := by
  cases xs with
  | nil => simp at hv
  | cons x xs =>
    rcases List.mem_cons.mp hv with rfl | hv'
    · exact le_trans (foldl_min_le_init xs v) (le_refl v)
    · exact foldl_min_le_mem xs x v hv'

theorem mem_le_tmax (xs : List ℚ) (v : ℚ) (hv : v ∈ xs) : v ≤ tmax xs := by
  cases xs with
  | nil => simp at hv
  | cons x xs =>
    rcases List.mem_cons.mp hv with rfl | hv'
    · exact le_foldl_max_init xs v
    · exact mem_le_foldl_max xs x v hv'

theorem min_scale (d : ℚ) (hd : 0 < d) (a b : ℚ) :
    min (a / d * 255) (b / d * 255) = min a b / d * 255 := by
  rcases le_total a b with h | h
  · rw [min_eq_left h, min_eq_left (by gcongr)]
  · rw [min_eq_right h, min_eq_right (by gcongr)]

theorem max_scale (d : ℚ) (hd : 0 < d) (a b : ℚ) :
    max (a / d * 255) (b / d * 255) = max a b / d * 255 := by
  rcases le_total a b with h | h
  · rw [max_eq_right h, max_eq_right (by gcongr)]
  · rw [max_eq_left h, max_eq_left (by gcongr)]

theorem normalizeFace_eq_pos (vals : List ℚ) (hne : vals ≠ [])
    (h : 0 < tmax vals - tmin vals) :
    normalizeFace vals = (vals.map (fun v => v - tmin vals)).map
      (fun v => v / (tmax vals - tmin vals) * 255) := by
  have hmin := tmin_map_sub vals (tmin vals) hne
  have hmax := tmax_map_sub vals (tmin vals) hne
  simp only [normalizeFace, hmin, hmax, sub_self, sub_zero, if_pos h]

theorem normalizeFace_eq_zero (vals : List ℚ) (hne : vals ≠ [])
    (h : tmax vals - tmin vals = 0) :
    normalizeFace vals = (vals.map (fun v => v - tmin vals)).map (fun v => v * 0) := by
  have hmin := tmin_map_sub vals (tmin vals) hne
  have hmax := tmax_map_sub vals (tmin vals) hne
  simp only [normalizeFace, hmin, hmax, sub_self, sub_zero, h, lt_irrefl, if_neg,
    not_false_eq_true, if_false]

/-! ## Claim theorems -/

/-- C1: for every valid inbound pub/sub message (non-empty `encoded`,
`request_id`, `filename`) whose image contains a detectable face, the
ingestion handler emits exactly one work-queue message; its `request_id` and
`filename` equal the input's, and its `face` field is a base64 string that
decodes to (the encoding of) a fixed-size 240×240 RGB image.  No
result-channel message is emitted. -/
theorem ingestion_face_found_one_work_message
    (det : List Nat → Except Unit (Option FaceTensor)) (imgSave : RGBImage → List Nat)
    (fs : FileSystem) (e rid fname : String) (img_bytes : List Nat) (t : FaceTensor)
    (he : e ≠ "") (hrid : rid ≠ "") (hfname : fname ≠ "")
    (hdec : b64decode e = some img_bytes)
    (hdet : det img_bytes = Except.ok (some t))
    (hh : t.height = 240) (hw : t.width = 240)
    (hbytes : ∀ b ∈ imgSave (tensorToRGB t), b < 256) :
    (on_message_received det imgSave (some ⟨some e, some rid, some fname⟩) fs).1
        = [IngEmit.toWorkQueue rid fname (b64encode (imgSave (tensorToRGB t)))]
      ∧ b64decode (b64encode (imgSave (tensorToRGB t))) = some (imgSave (tensorToRGB t))
      ∧ (tensorToRGB t).height = 240 ∧ (tensorToRGB t).width = 240 := by
  refine ⟨?_, b64decode_b64encode _ hbytes, by simp [tensorToRGB, hh],
    by simp [tensorToRGB, hw]⟩
  simp [on_message_received, falsy, he, hrid, hfname, hdec, detect_face_to_file, hdet,
    fsRead_fsWrite]

/-- Witness for C1 at a concrete detector, codec and message. -/
theorem ingestion_face_found_one_work_message_witness :
    (on_message_received (fun _ => Except.ok (some ⟨240, 240, [0, 2]⟩))
        (fun img => img.pixels) (some ⟨some ("AA=="), some ("r1"), some ("a.jpg")⟩) []).1
      = [IngEmit.toWorkQueue ("r1") ("a.jpg") (b64encode [0, 255])] := by
  have h := ingestion_face_found_one_work_message
    (fun _ => Except.ok (some ⟨240, 240, [0, 2]⟩)) (fun img => img.pixels)
    [] ("AA==") ("r1") ("a.jpg") [0] ⟨240, 240, [0, 2]⟩
    (by decide) (by decide) (by decide) (by rfl) (by rfl) (by rfl) (by rfl)
    (by norm_num [tensorToRGB, normalizeFace, tmin, tmax, toByte]; decide)
  rw [h.1]
  norm_num [tensorToRGB, normalizeFace, tmin, tmax, toByte]; decide

/-- C2: for every valid inbound message whose image contains no detectable
face, the ingestion handler emits exactly one result-channel message
`{request_id, filename, result: "No-Face"}` carrying the input's
`request_id` and `filename`, and no work-queue message. -/
theorem ingestion_no_face_one_result_message
    (det : List Nat → Except Unit (Option FaceTensor)) (imgSave : RGBImage → List Nat)
    (fs : FileSystem) (e rid fname : String) (img_bytes : List Nat)
    (he : e ≠ "") (hrid : rid ≠ "") (hfname : fname ≠ "")
    (hdec : b64decode e = some img_bytes)
    (hdet : det img_bytes = Except.ok none) :
    (on_message_received det imgSave (some ⟨some e, some rid, some fname⟩) fs).1
      = [IngEmit.toResultChannel rid fname ("No-Face")] := by
  simp [on_message_received, falsy, he, hrid, hfname, hdec, detect_face_to_file, hdet]

/-- Witness for C2 at a concrete detector and message. -/
theorem ingestion_no_face_one_result_message_witness :
    (on_message_received (fun _ => Except.ok none) (fun img => img.pixels)
        (some ⟨some ("AA=="), some ("r2"), some ("b.jpg")⟩) []).1
      = [IngEmit.toResultChannel ("r2") ("b.jpg") ("No-Face")] :=
  ingestion_no_face_one_result_message (fun _ => Except.ok none) (fun img => img.pixels)
    [] ("AA==") ("r2") ("b.jpg") [0]
    (by decide) (by decide) (by decide) (by rfl) (by rfl)

/-- C3: for every inbound message in which any of `encoded`, `request_id`,
`filename` is absent (`none`) or empty (`""`), the ingestion handler emits
nothing on either channel and leaves the scratch filesystem untouched. -/
theorem ingestion_malformed_input_dropped
    (det : List Nat → Except Unit (Option FaceTensor)) (imgSave : RGBImage → List Nat)
    (fs : FileSystem) (m : InMsg)
    (h : (falsy m.encoded || falsy m.request_id || falsy m.filename) = true) :
    on_message_received det imgSave (some m) fs = ([], fs, []) := by
  simp [on_message_received, h]

/-- Witness for C3 at a message missing the `encoded` key. -/
theorem ingestion_malformed_input_dropped_witness :
    on_message_received (fun _ => Except.ok none) (fun img => img.pixels)
        (some ⟨none, some ("r1"), some ("a.jpg")⟩) []
      = ([], [], []) :=
  ingestion_malformed_input_dropped (fun _ => Except.ok none) (fun img => img.pixels)
    [] ⟨none, some ("r1"), some ("a.jpg")⟩ (by decide)

/-- C8: the ingestion handler keeps no accumulating side state that changes
its decision: its emissions are independent of the incoming scratch
filesystem state, so re-delivering a message — directly after itself or
after any other interleaved deliveries — produces the same emissions each
time. -/
theorem ingestion_idempotent_under_redelivery
    (det : List Nat → Except Unit (Option FaceTensor)) (imgSave : RGBImage → List Nat)
    (msg : Option InMsg) (fs fs' : FileSystem) :
    (on_message_received det imgSave msg fs).1 = (on_message_received det imgSave msg fs').1
      ∧ (on_message_received det imgSave msg
          ((on_message_received det imgSave msg fs).2.1)).1
        = (on_message_received det imgSave msg fs).1 := by
  have key : ∀ g g' : FileSystem,
      (on_message_received det imgSave msg g).1
        = (on_message_received det imgSave msg g').1 := by
    intro g g'
    cases msg with
    | none => rfl
    | some m =>
      simp only [on_message_received]
      split
      · rfl
      · cases hdec : b64decode (m.encoded.getD ("")) with
        | none => rfl
        | some bytes =>
          simp only [detect_face_to_file]
          cases hdet : det bytes with
          | error e => rfl
          | ok o =>
            cases o with
            | none => rfl
            | some t => simp [fsRead_fsWrite]
  exact ⟨key fs fs', key _ fs⟩

/-- C9: the recognition stage never reads the `filename` field: two records
agreeing on `request_id` and `face` produce identical outcomes whatever
their `filename` fields, and a record lacking `filename` entirely is still
processed successfully. -/
theorem recognition_filename_independent
    (embedImg : List Nat → Option (List ℚ)) (embeddings : List (List ℚ))
    (names : List String) (tmpName : String) :
    (∀ p q : RecordPayload, p.request_id = q.request_id → p.face = q.face →
        processRecord embedImg embeddings names tmpName (some p)
          = processRecord embedImg embeddings names tmpName (some q))
      ∧ (∀ rid face face_bytes emb label,
          b64decode face = some face_bytes →
          embedImg face_bytes = some emb →
          predict_name embeddings names emb = some label →
          (processRecord embedImg embeddings names tmpName
              (some { request_id := some rid, face := some face, filename := none })).1
            = some { request_id := rid, result := label }) := by
  constructor
  · intro p q hrid hface
    cases p
    cases q
    simp only at hrid hface
    subst hrid
    subst hface
    rfl
  · intro rid face face_bytes emb label h1 h2 h3
    simp [processRecord, h1, h2, h3]

/-- Witness for C9: two concrete records differing only in `filename` (one
lacking it) give the same successful result. -/
theorem recognition_filename_independent_witness :
    processRecord (fun _ => some [0]) [[0]] ["alice"] ("/tmp/t0.jpg")
        (some { request_id := some ("r1"), face := some ("AA=="), filename := some ("x.jpg") })
      = processRecord (fun _ => some [0]) [[0]] ["alice"] ("/tmp/t0.jpg")
        (some { request_id := some ("r1"), face := some ("AA=="), filename := none })
    ∧ (processRecord (fun _ => some [0]) [[0]] ["alice"] ("/tmp/t0.jpg")
        (some { request_id := some ("r1"), face := some ("AA=="), filename := none })).1
      = some { request_id := ("r1"), result := ("alice") } :=
  ⟨(recognition_filename_independent (fun _ => some [0]) [[0]] ["alice"] ("/tmp/t0.jpg")).1
      _ _ rfl rfl,
    (recognition_filename_independent (fun _ => some [0]) [[0]] ["alice"] ("/tmp/t0.jpg")).2
      ("r1") ("AA==") [0] [0] ("alice") (by rfl) (by rfl) (by rfl)⟩

/-- C4: for every work-queue batch in which exactly one record fails to parse
or process, `lambda_handler` emits exactly `N - 1` result messages (one per
well-formed record, in batch order), no exception escapes (the handler is a
total function), and the returned value is the fixed success envelope
`{statusCode: 200, body: {"message": "Face recognition completed."}}`. -/
theorem lambda_handler_single_malformed_record
    (embedImg : List Nat → Option (List ℚ)) (embeddings : List (List ℚ))
    (names : List String) (freshName : Nat → String)
    (records : List (Option RecordPayload))
    (h : records.countP
        (fun r => (recordEmits embedImg embeddings names r).isNone) = 1) :
    ((lambda_handler embedImg embeddings names freshName (some records)).1).length
        = records.length - 1
      ∧ (lambda_handler embedImg embeddings names freshName (some records)).1
          = records.filterMap (recordEmits embedImg embeddings names)
      ∧ (lambda_handler embedImg embeddings names freshName (some records)).2.2
          = successResponse
      ∧ successResponse.statusCode = 200
      ∧ successResponse.body = "\x7b\"message\": \"Face recognition completed.\"\x7d" := by
  have hres : (lambda_handler embedImg embeddings names freshName (some records)).1
      = records.filterMap (recordEmits embedImg embeddings names) :=
    runRecords_results embedImg embeddings names freshName records 0
  refine ⟨?_, hres, rfl, rfl, rfl⟩
  rw [hres, length_filterMap_eq_countP]
  have hsum := countP_isSome_add_isNone (recordEmits embedImg embeddings names) records
  omega

/-- Witness for C4: a two-record batch whose second record is malformed yields
exactly one result message. -/
theorem lambda_handler_single_malformed_record_witness :
    ((lambda_handler (fun _ => some [0]) [[0]] ["alice"] (fun _ => "/tmp/t.jpg")
        (some [some { request_id := some ("r1"), face := some ("AA=="), filename := none },
          none])).1).length = 2 - 1
      ∧ (lambda_handler (fun _ => some [0]) [[0]] ["alice"] (fun _ => "/tmp/t.jpg")
          (some [some { request_id := some ("r1"), face := some ("AA=="), filename := none },
            none])).2.2 = successResponse :=
  have h := lambda_handler_single_malformed_record (fun _ => some [0]) [[0]] ["alice"]
    (fun _ => "/tmp/t.jpg")
    [some { request_id := some ("r1"), face := some ("AA=="), filename := none }, none]
    (by decide)
  ⟨h.1, h.2.2.1⟩

/-- C5: `predict_name` selects the reference vector at minimum Euclidean
distance from the query embedding (stated via squared distances, which the
strictly monotone square root maps to the true distances), breaking ties by
the first minimum in gallery order with no secondary criterion; in
particular, for a query exactly equal to one reference vector the returned
label is that reference's label. -/
theorem predict_name_nearest_neighbor
    (embeddings : List (List ℚ)) (names : List String) (emb : List ℚ)
    (hne : embeddings ≠ []) :
    (∃ i, i < embeddings.length
        ∧ predict_name embeddings names emb = names.get? i
        ∧ (∀ j, j < embeddings.length →
            dist2 emb (embeddings.getD i []) ≤ dist2 emb (embeddings.getD j []))
        ∧ (∀ j, j < i →
            dist2 emb (embeddings.getD i []) < dist2 emb (embeddings.getD j [])))
      ∧ (∀ i, i < embeddings.length → embeddings.getD i [] = emb →
          (∀ j, j < embeddings.length → j ≠ i → embeddings.getD j [] ≠ emb) →
          (∀ j, j < embeddings.length → (embeddings.getD j []).length = emb.length) →
          predict_name embeddings names emb = names.get? i) := by
  have hdne : embeddings.map (fun e => dist2 emb e) ≠ [] := by
    simpa using hne
  obtain ⟨i, hidx, hlen', hmin, hfirst⟩ := argminIdx_spec _ hdne
  have hlen : i < embeddings.length := by simpa using hlen'
  have hpred : predict_name embeddings names emb = names.get? i := by
    simp [predict_name, hidx]
  have hminD : ∀ j, j < embeddings.length →
      dist2 emb (embeddings.getD i []) ≤ dist2 emb (embeddings.getD j []) := by
    intro j hj
    have h := hmin j (by simpa using hj)
    rwa [getD_map_dist2 emb _ i hlen, getD_map_dist2 emb _ j hj] at h
  have hfirstD : ∀ j, j < i →
      dist2 emb (embeddings.getD i []) < dist2 emb (embeddings.getD j []) := by
    intro j hj
    have h := hfirst j hj
    rwa [getD_map_dist2 emb _ i hlen, getD_map_dist2 emb _ j (lt_trans hj hlen)] at h
  refine ⟨⟨i, hlen, hpred, hminD, hfirstD⟩, ?_⟩
  intro k hk hkq huniq hdims
  have hdk : dist2 emb (embeddings.getD k []) = 0 := by
    rw [hkq]
    exact dist2_self emb
  have hle : dist2 emb (embeddings.getD i []) ≤ 0 := hdk ▸ hminD k hk
  have hzero : dist2 emb (embeddings.getD i []) = 0 :=
    le_antisymm hle (dist2_nonneg _ _)
  have heqv : embeddings.getD i [] = emb :=
    (eq_of_dist2_eq_zero emb _ (hdims i hlen).symm hzero).symm
  have hki : k = i := by
    by_contra hne2
    exact huniq i hlen (fun h => hne2 h.symm) heqv
  subst hki
  exact hpred

/-- Witness for C5: in the two-vector gallery `[[0], [5]]` with labels
`["alice", "bob"]`, the query `[5]`, equal to the second reference, is
labeled `"bob"`. -/
theorem predict_name_nearest_neighbor_witness :
    predict_name [[0], [5]] ["alice", "bob"] [5] = some ("bob") := by
  have h := (predict_name_nearest_neighbor [[0], [5]] ["alice", "bob"] [5]
      (by decide)).2 1 (by decide) (by decide)
      (by
        intro j hj hj1
        have hj2 : j < 2 := by simpa using hj
        interval_cases j
        · decide
        · exact absurd rfl hj1)
      (by
        intro j hj
        have hj2 : j < 2 := by simpa using hj
        interval_cases j <;> decide)
  simpa using h

/-- C6: the ingestion normalization rescales a (nonempty) face crop to the
full `[0, 255]` range — its minimum becomes `0`, its maximum `255`, every
value lies in between — and when the crop's dynamic range is zero the guard
takes the division-free `face_img * 0` branch, making the crop uniformly
black; no division by zero occurs on any input. -/
theorem normalizeFace_rescales (vals : List ℚ) (hne : vals ≠ []) :
    (0 < tmax vals - tmin vals →
        tmin (normalizeFace vals) = 0
        ∧ tmax (normalizeFace vals) = 255
        ∧ (∀ v ∈ normalizeFace vals, 0 ≤ v ∧ v ≤ 255))
      ∧ (tmax vals - tmin vals = 0 →
          normalizeFace vals = vals.map (fun v => (v - tmin vals) * 0)
          ∧ (∀ v ∈ normalizeFace vals, v = 0)) := by
  have hshne : vals.map (fun v => v - tmin vals) ≠ [] := by
    simpa [List.map_eq_nil_iff] using hne
  have hminsh : tmin (vals.map (fun v => v - tmin vals)) = 0 := by
    rw [tmin_map_sub vals (tmin vals) hne, sub_self]
  have hmaxsh : tmax (vals.map (fun v => v - tmin vals)) = tmax vals - tmin vals :=
    tmax_map_sub vals (tmin vals) hne
  constructor
  · intro hpos
    have heq := normalizeFace_eq_pos vals hne hpos
    refine ⟨?_, ?_, ?_⟩
    · rw [heq, tmin_map_comm _ (min_scale _ hpos) _ hshne, hminsh, zero_div, zero_mul]
    · rw [heq, tmax_map_comm _ (max_scale _ hpos) _ hshne, hmaxsh,
        div_self (ne_of_gt hpos), one_mul]
    · intro v hv
      rw [heq] at hv
      obtain ⟨w, hw, rfl⟩ := List.mem_map.mp hv
      have hw0 : 0 ≤ w := hminsh ▸ tmin_le_mem _ w hw
      have hwD : w ≤ tmax vals - tmin vals := hmaxsh ▸ mem_le_tmax _ w hw
      constructor
      · exact mul_nonneg (div_nonneg hw0 (le_of_lt hpos)) (by norm_num)
      · calc w / (tmax vals - tmin vals) * 255
            ≤ 1 * 255 := by
              have h1 : w / (tmax vals - tmin vals) ≤ 1 := (div_le_one hpos).mpr hwD
              exact mul_le_mul_of_nonneg_right h1 (by norm_num)
          _ = 255 := one_mul 255
  · intro hzero
    have heq := normalizeFace_eq_zero vals hne hzero
    constructor
    · rw [heq, List.map_map]
      rfl
    · intro v hv
      rw [heq] at hv
      obtain ⟨w, _, rfl⟩ := List.mem_map.mp hv
      exact mul_zero w

/-- Witness for C6: the crop `[0, 2]` rescales to minimum `0` and maximum
`255`; the zero-range crop `[3, 3]` becomes uniformly black. -/
theorem normalizeFace_rescales_witness :
    (tmin (normalizeFace [(0 : ℚ), 2]) = 0 ∧ tmax (normalizeFace [(0 : ℚ), 2]) = 255)
      ∧ (∀ v ∈ normalizeFace [(3 : ℚ), 3], v = 0) :=
  ⟨⟨((normalizeFace_rescales [0, 2] (by decide)).1 (by norm_num [tmin, tmax])).1,
      ((normalizeFace_rescales [0, 2] (by decide)).1 (by norm_num [tmin, tmax])).2.1⟩,
    ((normalizeFace_rescales [3, 3] (by decide)).2 (by norm_num [tmin, tmax])).2⟩

theorem processRecord_ops_cases (embedImg : List Nat → Option (List ℚ))
    (embeddings : List (List ℚ)) (names : List String) (tmpName : String)
    (record : Option RecordPayload) :
    (processRecord embedImg embeddings names tmpName record).2 = []
      ∨ (processRecord embedImg embeddings names tmpName record).2
          = [FileOp.create tmpName]
      ∨ (processRecord embedImg embeddings names tmpName record).2
          = [FileOp.create tmpName, FileOp.remove tmpName] := by
  cases record with
  | none => exact Or.inl rfl
  | some p =>
    obtain ⟨r1, f1, n1⟩ := p
    cases r1 with
    | none => exact Or.inl rfl
    | some rid =>
      cases f1 with
      | none => exact Or.inl rfl
      | some face =>
        rcases hdec : b64decode face with _ | bs
        · refine Or.inr (Or.inl ?_)
          simp [processRecord, hdec]
        · rcases hemb : embedImg bs with _ | emb
          · refine Or.inr (Or.inr ?_)
            simp [processRecord, hdec, hemb]
          · rcases hpred : predict_name embeddings names emb with _ | label
            · refine Or.inr (Or.inr ?_)
              simp [processRecord, hdec, hemb, hpred]
            · refine Or.inr (Or.inr ?_)
              simp [processRecord, hdec, hemb, hpred]

/-- C7 counterexample: the claim that every record of the pipeline uses a
uniquely-named temporary file that is deleted on its own exit path is false
at concrete inputs.  Two ingestion messages with different `request_id` and
`filename` both write to the single fixed path
`/tmp/faces/detected_face.jpg`, and neither trace contains a removal; and a
recognition record whose `face` payload `"A"` is mis-padded base64 — on
which Python's `b64decode` raises `binascii.Error` inside `tmpf.write`,
before `face_path` is assigned — creates its temp file but never removes
it. -/
theorem temp_file_unique_cleanup_counterexample :
    (on_message_received (fun _ => Except.ok (some ⟨240, 240, [0]⟩))
        (fun img => img.pixels)
        (some ⟨some ("AA=="), some ("r1"), some ("a.jpg")⟩) []).2.2
        = [FileOp.create ingestionFacePath]
      ∧ (on_message_received (fun _ => Except.ok (some ⟨240, 240, [0]⟩))
          (fun img => img.pixels)
          (some ⟨some ("AA=="), some ("r2"), some ("b.jpg")⟩) []).2.2
        = [FileOp.create ingestionFacePath]
      ∧ (processRecord (fun _ => some [0]) [[0]] ["alice"] ("/tmp/t1.jpg")
          (some { request_id := some ("r3"), face := some ("A"), filename := none })).2
        = [FileOp.create ("/tmp/t1.jpg")] := by
  refine ⟨?_, ?_, ?_⟩ <;> rfl

/-- C7 (amended): in the Recognition stage each record's file operations
touch only its own per-record temp-file name, and once the `face` payload
has been decoded (so the path is recorded in `face_path`), the file is
removed on the record's exit path whether recognition succeeds or fails; a
record on whose `face` payload the base64 decode raises (mis-padded input)
leaves its just-created file behind, and the
Ingestion stage writes every crop to the single fixed path
`/tmp/faces/detected_face.jpg`, which no ingestion trace ever removes. -/
theorem temp_file_discipline (embedImg : List Nat → Option (List ℚ))
    (embeddings : List (List ℚ)) (names : List String) (tmpName : String)
    (record : Option RecordPayload) :
    (∀ op ∈ (processRecord embedImg embeddings names tmpName record).2,
        op = FileOp.create tmpName ∨ op = FileOp.remove tmpName)
      ∧ (∀ payload face face_bytes, record = some payload →
          payload.request_id.isSome = true → payload.face = some face →
          b64decode face = some face_bytes →
          (processRecord embedImg embeddings names tmpName record).2
            = [FileOp.create tmpName, FileOp.remove tmpName])
      ∧ (∀ (det : List Nat → Except Unit (Option FaceTensor))
          (imgSave : RGBImage → List Nat) (msg : Option InMsg) (fs : FileSystem),
          ∀ op ∈ (on_message_received det imgSave msg fs).2.2,
            op = FileOp.create ingestionFacePath) := by
  refine ⟨?_, ?_, ?_⟩
  · intro op hop
    rcases processRecord_ops_cases embedImg embeddings names tmpName record
      with hc | hc | hc <;> rw [hc] at hop
    · simp at hop
    · simp at hop
      exact Or.inl hop
    · simp at hop
      exact hop
  · intro payload face face_bytes hrec hrid hface hdec
    subst hrec
    obtain ⟨r1, f1, n1⟩ := payload
    cases r1 with
    | none => simp at hrid
    | some rid =>
      simp only at hface
      subst hface
      rcases hemb : embedImg face_bytes with _ | emb
      · simp [processRecord, hdec, hemb]
      · rcases hpred : predict_name embeddings names emb with _ | label
        · simp [processRecord, hdec, hemb, hpred]
        · simp [processRecord, hdec, hemb, hpred]
  · intro det imgSave msg fs op hop
    cases msg with
    | none => simp [on_message_received] at hop
    | some m =>
      by_cases hfal : (falsy m.encoded || falsy m.request_id || falsy m.filename) = true
      · simp [on_message_received, hfal] at hop
      · rcases hdec2 : b64decode (m.encoded.getD ("")) with _ | bytes
        · simp [on_message_received, hfal, hdec2] at hop
        · rcases hdet : det bytes with e | o
          · simp [on_message_received, detect_face_to_file, hfal, hdec2, hdet] at hop
          · cases o with
            | none =>
              simp [on_message_received, detect_face_to_file, hfal, hdec2, hdet] at hop
            | some t =>
              simp [on_message_received, detect_face_to_file, hfal, hdec2, hdet] at hop
              simp [hop, ingestionFacePath]

/-- Witness for the amended C7: a recognition record whose `face` decodes
successfully gets its temp file created and then removed. -/
theorem temp_file_discipline_witness :
    (processRecord (fun _ => some [0]) [[0]] ["alice"] ("/tmp/t0.jpg")
        (some { request_id := some ("r1"), face := some ("AA=="), filename := none })).2
      = [FileOp.create ("/tmp/t0.jpg"), FileOp.remove ("/tmp/t0.jpg")] :=
  (temp_file_discipline (fun _ => some [0]) [[0]] ["alice"] ("/tmp/t0.jpg")
      (some { request_id := some ("r1"), face := some ("AA=="), filename := none })).2.1
    { request_id := some ("r1"), face := some ("AA=="), filename := none } ("AA==") [0]
    rfl rfl rfl (by rfl)

/-- C10: an invocation event with no `"Records"` key, or with an empty record
list, produces no result message, performs no file operation, and still
returns the fixed success envelope
`{statusCode: 200, body: {"message": "Face recognition completed."}}`. -/
theorem lambda_handler_empty_event
    (embedImg : List Nat → Option (List ℚ)) (embeddings : List (List ℚ))
    (names : List String) (freshName : Nat → String) :
    lambda_handler embedImg embeddings names freshName none = ([], [], successResponse)
      ∧ lambda_handler embedImg embeddings names freshName (some [])
          = ([], [], successResponse)
      ∧ successResponse.statusCode = 200
      ∧ successResponse.body = "\x7b\"message\": \"Face recognition completed.\"\x7d" :=
  ⟨rfl, rfl, rfl, rfl⟩

end FacePipeline
